import Mathlib

/-!
Verification of the aggregator extension
(`aptos-move/aptos-aggregator/src/aggregator_extension.rs`).

The Rust module implements a bounded, non-negative counter ("aggregator")
whose mutations may be tracked as deltas against an unknown base value.
We embed the data model and the operations shallowly: `u128` values become
`Nat` (the checked arithmetic never wraps: `addition` compares against a
limit that itself fits in `u128`, so its behaviour on in-range inputs
coincides with `Nat` arithmetic), `PartialVMResult` becomes
`Except AggErr`, and `&mut self` methods become functions returning the
updated record paired with the fallible result, so that a method that
errors out midway would return the partially mutated record.
-/

/-- Error kinds. `Overflow` and `Underflow` are the arithmetic failures of
`addition`/`subtraction`; `ResolutionFailed` models the extension error
raised when the resolver cannot produce a value; `PanicUnreachable` models
the Rust panics (`unreachable!`, `unwrap` on `None`) that the module's
invariants keep dead. -/
inductive AggErr where
  | Overflow
  | Underflow
  | ResolutionFailed
  | PanicUnreachable
deriving DecidableEq, Repr

/-- Describes the state of each aggregator instance. -/
inductive AggregatorState where
  | Data
  | PositiveDelta
  | NegativeDelta
deriving DecidableEq, Repr

/-- Uniquely identifies each aggregator instance. The opaque handle and
32-byte key of the legacy variant are embedded as natural numbers; only
equality and ordering of identifiers matter to this module. -/
inductive AggregatorID where
  | Legacy (handle : Nat) (key : Nat)
  | Ephemeral (n : Nat)
deriving DecidableEq, Repr

/-- Tracks the biggest and smallest deltas seen during execution. -/
structure History where
  max_positive : Nat
  min_negative : Nat
deriving DecidableEq, Repr

def History.new : History :=
  { max_positive := 0, min_negative := 0 }

def History.record_positive (self : History) (value : Nat) : History :=
  { self with max_positive := max self.max_positive value }

def History.record_negative (self : History) (value : Nat) : History :=
  { self with min_negative := max self.min_negative value }

/-- Internal aggregator data structure. -/
structure Aggregator where
  value : Nat
  state : AggregatorState
  limit : Nat
  history : Option History
deriving DecidableEq, Repr

/-- Modelled from the spec: `addition` lives in `delta_change_set.rs`,
which is not among the provided sources. Per the spec's checked-arithmetic
component: returns `a + b` if `a + b ≤ limit`, otherwise fails with an
`Overflow` error, with no wrap on any input. -/
def addition (a b limit : Nat) : Except AggErr Nat :=
  if a + b ≤ limit then .ok (a + b) else .error .Overflow

/-- Modelled from the spec: `subtraction` lives in `delta_change_set.rs`,
which is not among the provided sources. Per the spec's checked-arithmetic
component: returns `a - b` if `b ≤ a`, otherwise fails with an `Underflow`
error, with no wrap on any input. -/
def subtraction (a b : Nat) : Except AggErr Nat :=
  if b ≤ a then .ok (a - b) else .error .Underflow

/-- Records observed delta in history. Should be called after an operation
to record its side-effects. The `Data` case is `unreachable!` in the
source; it is never reached from `add`/`sub`, whose `Data` branches return
before calling `record`, so we leave the aggregator unchanged there. -/
def Aggregator.record (self : Aggregator) : Aggregator :=
  match self.history with
  | none => self
  | some history =>
    match self.state with
    | .PositiveDelta => { self with history := some (history.record_positive self.value) }
    | .NegativeDelta => { self with history := some (history.record_negative self.value) }
    | .Data => self

/-- Implements logic for adding to an aggregator. -/
def Aggregator.add (self : Aggregator) (value : Nat) : Aggregator × Except AggErr Unit :=
  match self.state with
  | .Data =>
    match addition self.value value self.limit with
    | .error e => (self, .error e)
    | .ok v => ({ self with value := v }, .ok ())
  | .PositiveDelta =>
    match addition self.value value self.limit with
    | .error e => (self, .error e)
    | .ok v => (Aggregator.record { self with value := v }, .ok ())
  | .NegativeDelta =>
    if self.value ≤ value then
      match subtraction value self.value with
      | .error e => (self, .error e)
      | .ok v =>
        (Aggregator.record { self with value := v, state := .PositiveDelta }, .ok ())
    else
      match subtraction self.value value with
      | .error e => (self, .error e)
      | .ok v => (Aggregator.record { self with value := v }, .ok ())

/-- Implements logic for subtracting from an aggregator. -/
def Aggregator.sub (self : Aggregator) (value : Nat) : Aggregator × Except AggErr Unit :=
  match self.state with
  | .Data =>
    match subtraction self.value value with
    | .error e => (self, .error e)
    | .ok v => ({ self with value := v }, .ok ())
  | .PositiveDelta =>
    if self.value ≥ value then
      match subtraction self.value value with
      | .error e => (self, .error e)
      | .ok v => (Aggregator.record { self with value := v }, .ok ())
    else
      match subtraction self.limit value with
      | .error e => (self, .error e)
      | .ok _ =>
        match subtraction value self.value with
        | .error e => (self, .error e)
        | .ok v =>
          (Aggregator.record { self with value := v, state := .NegativeDelta }, .ok ())
  | .NegativeDelta =>
    match addition self.value value self.limit with
    | .error e => (self, .error e)
    | .ok v => (Aggregator.record { self with value := v }, .ok ())

/-- Implements logic for reading the value of an aggregator. The resolver
capability `resolve_aggregator_value` is embedded as a function returning
`Option Nat`; `none` models a resolver failure, which the source maps to an
extension error. The `unwrap` of a missing history and the `Data` arm of
the final match are panics in the source, modelled by `PanicUnreachable`. -/
def Aggregator.read_and_materialize (self : Aggregator)
    (resolver : AggregatorID → Option Nat) (id : AggregatorID) :
    Aggregator × Except AggErr Nat :=
  if self.state = .Data then (self, .ok self.value)
  else
    match resolver id with
    | none => (self, .error .ResolutionFailed)
    | some value_from_storage =>
      match self.history with
      | none => (self, .error .PanicUnreachable)
      | some history =>
        match addition value_from_storage history.max_positive self.limit with
        | .error e => (self, .error e)
        | .ok _ =>
          match subtraction value_from_storage history.min_negative with
          | .error e => (self, .error e)
          | .ok _ =>
            match self.state with
            | .PositiveDelta =>
              match addition value_from_storage self.value self.limit with
              | .error e => (self, .error e)
              | .ok v =>
                ({ self with value := v, state := .Data, history := none }, .ok v)
            | .NegativeDelta =>
              match subtraction value_from_storage self.value with
              | .error e => (self, .error e)
              | .ok v =>
                ({ self with value := v, state := .Data, history := none }, .ok v)
            | .Data => (self, .error .PanicUnreachable)

/-- Unpacks aggregator into its fields. -/
def Aggregator.unpack (self : Aggregator) :
    Nat × AggregatorState × Nat × Option History :=
  (self.value, self.state, self.limit, self.history)

/-- Lookup in the `BTreeMap` of aggregators, embedded as an association
list with at most one binding per key. -/
def mapLookup (m : List (AggregatorID × Aggregator)) (id : AggregatorID) :
    Option Aggregator :=
  match m with
  | [] => none
  | (k, a) :: rest => if k = id then some a else mapLookup rest id

/-- Insert for the `BTreeMap`: replace the binding if the key is present,
otherwise append a new binding. -/
def mapInsert (m : List (AggregatorID × Aggregator)) (id : AggregatorID)
    (a : Aggregator) : List (AggregatorID × Aggregator) :=
  match m with
  | [] => [(id, a)]
  | (k, b) :: rest =>
    if k = id then (id, a) :: rest else (k, b) :: mapInsert rest id a

/-- Removal for the `BTreeMap`: drop the binding for the key. -/
def mapRemove (m : List (AggregatorID × Aggregator)) (id : AggregatorID) :
    List (AggregatorID × Aggregator) :=
  m.filter (fun p => p.1 ≠ id)

/-- Insert for the `BTreeSet`, embedded as a duplicate-free list. -/
def setInsert (s : List AggregatorID) (id : AggregatorID) : List AggregatorID :=
  if id ∈ s then s else id :: s

/-- Removal for the `BTreeSet`. -/
def setRemove (s : List AggregatorID) (id : AggregatorID) : List AggregatorID :=
  s.filter (fun x => x ≠ id)

/-- Stores all information about aggregators per single transaction. The
`AtomicU64` counter is embedded as a `Nat`: the registry is
transaction-local and this development is single-threaded. -/
structure AggregatorData where
  new_aggregators : List AggregatorID
  destroyed_aggregators : List AggregatorID
  aggregators : List (AggregatorID × Aggregator)
  id_counter : Nat
deriving DecidableEq, Repr

/-- Constructor of the registry (also `Default::default()` with counter 0). -/
def AggregatorData.new (id_counter : Nat) : AggregatorData :=
  { new_aggregators := []
    destroyed_aggregators := []
    aggregators := []
    id_counter := id_counter }

/-- Returns an aggregator with `id` and a `limit`, creating a fresh
delta-state instance on first touch (`entry(id).or_insert(...)`). If the
`aggregator_enabled` flag is false, `read_and_materialize` is invoked on
the instance before it is handed out; since the entry has already been
inserted, the registry keeps the (unmaterialized) instance even when the
materialization errors. -/
def AggregatorData.get_aggregator (self : AggregatorData) (id : AggregatorID)
    (limit : Nat) (resolver : AggregatorID → Option Nat)
    (aggregator_enabled : Bool) : AggregatorData × Except AggErr Aggregator :=
  let aggregator :=
    match mapLookup self.aggregators id with
    | some a => a
    | none =>
      { value := 0, state := .PositiveDelta, limit := limit,
        history := some History.new }
  let self1 := { self with aggregators := mapInsert self.aggregators id aggregator }
  if aggregator_enabled then
    (self1, .ok aggregator)
  else
    match aggregator.read_and_materialize resolver id with
    | (a, .ok _) =>
      ({ self1 with aggregators := mapInsert self1.aggregators id a }, .ok a)
    | (a, .error e) =>
      ({ self1 with aggregators := mapInsert self1.aggregators id a }, .error e)

/-- Returns the number of aggregators used in the current transaction. -/
def AggregatorData.num_aggregators (self : AggregatorData) : Nat :=
  self.aggregators.length

/-- Creates a new aggregator with a given `id` and a `limit`, in a data
state with a zero-initialized value. -/
def AggregatorData.create_new_aggregator (self : AggregatorData)
    (id : AggregatorID) (limit : Nat) : AggregatorData :=
  { self with
    aggregators :=
      mapInsert self.aggregators id
        { value := 0, state := .Data, limit := limit, history := none }
    new_aggregators := setInsert self.new_aggregators id }

/-- If the aggregator has been used in this transaction it is removed,
otherwise it is marked for deletion. -/
def AggregatorData.remove_aggregator (self : AggregatorData)
    (id : AggregatorID) : AggregatorData :=
  let self1 := { self with aggregators := mapRemove self.aggregators id }
  if id ∈ self1.new_aggregators then
    { self1 with new_aggregators := setRemove self1.new_aggregators id }
  else
    { self1 with destroyed_aggregators := setInsert self1.destroyed_aggregators id }

/-- Increment the counter, then read it (`generate_id`). In this
single-threaded embedding the two atomic steps collapse into one. -/
def AggregatorData.generate_id (self : AggregatorData) : AggregatorData × Nat :=
  let c := self.id_counter + 1
  ({ self with id_counter := c }, c)

/-- Unpacks aggregator data into its three collections. -/
def AggregatorData.unpack (self : AggregatorData) :
    List AggregatorID × List AggregatorID × List (AggregatorID × Aggregator) :=
  (self.new_aggregators, self.destroyed_aggregators, self.aggregators)

/-- A single delta operation applied to an aggregator. -/
inductive DeltaOp where
  | addOp (n : Nat)
  | subOp (n : Nat)
deriving DecidableEq, Repr

def applyDelta (a : Aggregator) (d : DeltaOp) : Aggregator × Except AggErr Unit :=
  match d with
  | .addOp n => a.add n
  | .subOp n => a.sub n

/-- Apply a sequence of delta operations, stopping at the first error. -/
def applyDeltas (a : Aggregator) : List DeltaOp → Aggregator × Except AggErr Unit
  | [] => (a, .ok ())
  | d :: ds =>
    match applyDelta a d with
    | (a1, .ok _) => applyDeltas a1 ds
    | (a1, .error e) => (a1, .error e)

/-- The fresh delta-state instance that `get_aggregator` inserts on first
touch. -/
def freshAggregator (limit : Nat) : Aggregator :=
  { value := 0, state := .PositiveDelta, limit := limit,
    history := some History.new }

/-- The signed magnitude of a delta operation. -/
def DeltaOp.signed : DeltaOp → Int
  | .addOp n => (n : Int)
  | .subOp n => -(n : Int)

/-- The signed value an aggregator in a delta state represents relative to
the unknown base. -/
def signedValue (a : Aggregator) : Int :=
  match a.state with
  | .NegativeDelta => -(a.value : Int)
  | _ => (a.value : Int)

/-- The running signed sums of a delta sequence, starting from `s`. -/
def runningSums (s : Int) : List DeltaOp → List Int
  | [] => []
  | d :: ds => (s + d.signed) :: runningSums (s + d.signed) ds

/-- Largest positive excursion of a list of signed sums, floored at 0. -/
def supPos (l : List Int) : Nat :=
  l.foldl (fun m x => max m x.toNat) 0

/-- Largest magnitude of negative excursion of a list of signed sums,
floored at 0. -/
def supNeg (l : List Int) : Nat :=
  l.foldl (fun m x => max m (-x).toNat) 0

/-- A registry (transaction-level) operation. -/
inductive RegistryOp where
  | getOp (id : AggregatorID) (limit : Nat) (enabled : Bool)
  | createOp (id : AggregatorID) (limit : Nat)
  | removeOp (id : AggregatorID)
deriving DecidableEq, Repr

def applyRegistryOp (resolver : AggregatorID → Option Nat)
    (d : AggregatorData) : RegistryOp → AggregatorData
  | .getOp id limit enabled => (d.get_aggregator id limit resolver enabled).1
  | .createOp id limit => d.create_new_aggregator id limit
  | .removeOp id => d.remove_aggregator id

def applyRegistryOps (resolver : AggregatorID → Option Nat)
    (d : AggregatorData) : List RegistryOp → AggregatorData
  | [] => d
  | op :: ops => applyRegistryOps resolver (applyRegistryOp resolver d op) ops

/-- Whether a registry operation creates the given id. -/
def createsId (op : RegistryOp) (id : AggregatorID) : Bool :=
  match op with
  | .createOp i _ => i = id
  | _ => false

/-- No `create_new_aggregator` for an id occurs after a `remove_aggregator`
of the same id. -/
def noCreateAfterRemove : List RegistryOp → Bool
  | [] => true
  | op :: ops =>
    (match op with
     | .removeOp id => ops.all (fun o => !(createsId o id))
     | _ => true) && noCreateAfterRemove ops

/-- The ids bound in an association list of aggregators. -/
def mapKeys (m : List (AggregatorID × Aggregator)) : List AggregatorID :=
  m.map (fun p => p.1)

/-- Two id collections are disjoint. -/
def idsDisjoint (s t : List AggregatorID) : Prop :=
  ∀ id, id ∈ s → id ∉ t

/-- The pairwise disjointness of the three collections surfaced by
`AggregatorData.unpack`, as the spec states it. -/
def unpackPairwiseDisjoint (d : AggregatorData) : Prop :=
  idsDisjoint d.new_aggregators d.destroyed_aggregators ∧
  idsDisjoint d.new_aggregators (mapKeys d.aggregators) ∧
  idsDisjoint d.destroyed_aggregators (mapKeys d.aggregators)

instance (s t : List AggregatorID) : Decidable (idsDisjoint s t) := by
  unfold idsDisjoint
  infer_instance

instance (d : AggregatorData) : Decidable (unpackPairwiseDisjoint d) := by
  unfold unpackPairwiseDisjoint
  infer_instance

/-- Per-instance bound invariants: the value and the recorded history are
within the limit. -/
def Aggregator.inv (a : Aggregator) : Prop :=
  a.value ≤ a.limit ∧
  (∀ h, a.history = some h → h.max_positive ≤ a.limit ∧ h.min_negative ≤ a.limit)

/-- Rest-state invariants: the bound invariants plus the presence of a
history exactly in the delta states. -/
def Aggregator.restInv (a : Aggregator) : Prop :=
  a.inv ∧ (a.history.isSome ↔ a.state ≠ .Data)

/-- The signed sum of a delta sequence. -/
def sumSigned (ds : List DeltaOp) : Int :=
  (ds.map DeltaOp.signed).sum

/- ======================== Theorems ======================== -/

theorem addition_ok_iff {a b l v : Nat} :
    addition a b l = .ok v ↔ a + b ≤ l ∧ v = a + b := by
  unfold addition
  split <;> simp_all <;> omega

theorem addition_error_iff {a b l : Nat} {e : AggErr} :
    addition a b l = .error e ↔ l < a + b ∧ e = .Overflow := by
  unfold addition
  split
  · constructor
    · intro hc
      exact absurd hc (by simp)
    · rintro ⟨h1, -⟩
      omega
  · constructor
    · intro hc
      injection hc with hc
      exact ⟨by omega, hc.symm⟩
    · rintro ⟨-, rfl⟩
      rfl

theorem subtraction_ok_iff {a b v : Nat} :
    subtraction a b = .ok v ↔ b ≤ a ∧ v = a - b := by
  unfold subtraction
  split <;> simp_all <;> omega

theorem subtraction_error_iff {a b : Nat} {e : AggErr} :
    subtraction a b = .error e ↔ a < b ∧ e = .Underflow := by
  unfold subtraction
  split
  · constructor
    · intro hc
      exact absurd hc (by simp)
    · rintro ⟨h1, -⟩
      omega
  · constructor
    · intro hc
      injection hc with hc
      exact ⟨by omega, hc.symm⟩
    · rintro ⟨-, rfl⟩
      rfl

@[simp]
theorem record_value (a : Aggregator) : a.record.value = a.value := by
  unfold Aggregator.record
  repeat' split
  all_goals rfl

@[simp]
theorem record_state (a : Aggregator) : a.record.state = a.state := by
  unfold Aggregator.record
  repeat' split
  all_goals rfl

@[simp]
theorem record_limit (a : Aggregator) : a.record.limit = a.limit := by
  unfold Aggregator.record
  repeat' split
  all_goals rfl

/-- C2: for every aggregator satisfying the rest-state invariants and every
input, whenever `add`, `sub`, or `read_and_materialize` returns an error,
the aggregator's `value`, `state`, and `history` fields are exactly equal
to their values before the call: operations are all-or-nothing. -/
theorem C2_all_or_nothing (a : Aggregator) (hinv : a.restInv) (n : Nat)
    (resolver : AggregatorID → Option Nat) (id : AggregatorID) :
    (∀ a' e, a.add n = (a', .error e) → a' = a) ∧
    (∀ a' e, a.sub n = (a', .error e) → a' = a) ∧
    (∀ a' e, a.read_and_materialize resolver id = (a', .error e) → a' = a) := by
  refine ⟨?_, ?_, ?_⟩ <;> intro a' e h
  · unfold Aggregator.add at h
    repeat' split at h
    all_goals simp_all
  · unfold Aggregator.sub at h
    repeat' split at h
    all_goals simp_all
  · unfold Aggregator.read_and_materialize at h
    repeat' split at h
    all_goals simp_all

/-- C2 witness: a fresh aggregator with limit 10 satisfies the rest-state
invariants, and the failing `add 100` leaves it unchanged. -/
theorem C2_all_or_nothing_witness :
    (freshAggregator 10).restInv ∧
    ((freshAggregator 10).add 100).1 = freshAggregator 10 := by
  have hinv : (freshAggregator 10).restInv := by
    refine ⟨⟨by simp [freshAggregator], ?_⟩, by simp [freshAggregator]⟩
    intro h hh
    simp [freshAggregator, History.new] at hh
    simp [← hh, freshAggregator]
  exact ⟨hinv, (C2_all_or_nothing (freshAggregator 10) hinv 100 (fun _ => none)
    (.Ephemeral 0)).1 _ .Overflow rfl⟩

/-- C7: from `PositiveDelta` with `value < y`, `sub y` fails with
`Underflow` exactly when `y > limit`; when `y ≤ limit` it succeeds, setting
`value` to `y - value` and the state to `NegativeDelta`. -/
theorem C7_sub_sign_flip (a : Aggregator) (y : Nat)
    (hst : a.state = .PositiveDelta) (hlt : a.value < y) :
    ((a.sub y).2 = .error .Underflow ↔ a.limit < y) ∧
    (a.limit < y → (a.sub y).1 = a) ∧
    (y ≤ a.limit →
      (a.sub y).2 = .ok () ∧ (a.sub y).1.value = y - a.value ∧
      (a.sub y).1.state = .NegativeDelta) := by
  rcases a with ⟨v, st, l, hi⟩
  simp only at hst hlt
  subst hst
  unfold Aggregator.sub
  simp only [ge_iff_le, Nat.not_le.mpr hlt, if_false]
  by_cases hy : y ≤ l
  · rw [show subtraction l y = .ok (l - y) from subtraction_ok_iff.mpr ⟨hy, rfl⟩]
    rw [show subtraction y v = .ok (y - v) from subtraction_ok_iff.mpr ⟨by omega, rfl⟩]
    refine ⟨by simp; omega, by intro hc; omega, ?_⟩
    intro _
    refine ⟨rfl, ?_, ?_⟩ <;> simp
  · rw [show subtraction l y = .error .Underflow from
      subtraction_error_iff.mpr ⟨by omega, rfl⟩]
    exact ⟨by simp; omega, fun _ => rfl, fun hc => absurd hc hy⟩

/-- C7 witness: `sub 2` on a fresh aggregator succeeds when the limit
is 2 and fails with `Underflow` when the limit is 1. -/
theorem C7_sub_sign_flip_witness :
    ((freshAggregator 2).sub 2).2 = .ok () ∧
    ((freshAggregator 2).sub 2).1.state = .NegativeDelta ∧
    ((freshAggregator 1).sub 2).2 = .error .Underflow := by
  have h2 := C7_sub_sign_flip (freshAggregator 2) 2 rfl (by simp [freshAggregator])
  have h1 := C7_sub_sign_flip (freshAggregator 1) 2 rfl (by simp [freshAggregator])
  exact ⟨(h2.2.2 (by simp [freshAggregator])).1,
    (h2.2.2 (by simp [freshAggregator])).2.2,
    h1.1.mpr (by simp [freshAggregator])⟩

theorem mapInsert_self {m : List (AggregatorID × Aggregator)}
    {id : AggregatorID} {a : Aggregator} (h : mapLookup m id = some a) :
    mapInsert m id a = m := by
  induction m with
  | nil => simp [mapLookup] at h
  | cons p rest ih =>
    obtain ⟨k, b⟩ := p
    by_cases hk : k = id
    · subst hk
      simp [mapLookup] at h
      simp [mapInsert, h]
    · simp [mapLookup, hk] at h
      simp [mapInsert, hk, ih h]

/-- C9: `get_aggregator` on an id already present in the registry, with
delta tracking enabled and a possibly different `limit2`, returns the
stored instance unchanged (in particular its stored `limit` is not
replaced by `limit2`) and leaves the registry exactly as it was: no new
entry is inserted. -/
theorem C9_get_preserves_existing (d : AggregatorData) (id : AggregatorID)
    (limit2 : Nat) (resolver : AggregatorID → Option Nat) (a : Aggregator)
    (h : mapLookup d.aggregators id = some a) :
    d.get_aggregator id limit2 resolver true = (d, .ok a) := by
  unfold AggregatorData.get_aggregator
  simp [h, mapInsert_self h]

/-- C9 witness: getting an existing entry (limit 5) with `limit2 = 999`
returns the stored instance and the unchanged registry. -/
theorem C9_get_preserves_existing_witness :
    ((AggregatorData.new 0).create_new_aggregator (.Ephemeral 1) 5).get_aggregator
        (.Ephemeral 1) 999 (fun _ => none) true =
      ((AggregatorData.new 0).create_new_aggregator (.Ephemeral 1) 5,
        .ok { value := 0, state := .Data, limit := 5, history := none }) :=
  C9_get_preserves_existing _ (.Ephemeral 1) 999 (fun _ => none) _ rfl

/-- C8: if `read_and_materialize` succeeds returning `v`, a subsequent
call on the resulting aggregator succeeds with the same `v`, leaves the
aggregator unchanged, and never invokes the resolver: the second call
returns the same answer for every resolver and id whatsoever. -/
theorem C8_idempotent_materialization (a : Aggregator)
    (resolver : AggregatorID → Option Nat) (id : AggregatorID)
    (a1 : Aggregator) (v : Nat)
    (h : a.read_and_materialize resolver id = (a1, .ok v)) :
    ∀ (resolver2 : AggregatorID → Option Nat) (id2 : AggregatorID),
      a1.read_and_materialize resolver2 id2 = (a1, .ok v) := by
  have key : a1.state = .Data ∧ a1.value = v := by
    unfold Aggregator.read_and_materialize at h
    repeat' split at h
    all_goals simp_all
    all_goals
      obtain ⟨h1, h2⟩ := h
      simp [← h1, h2]
  intro resolver2 id2
  unfold Aggregator.read_and_materialize
  simp [key.1, key.2]

/-- C8 witness: materializing a `+3` delta against base 2 gives 5, and
materializing again with a failing resolver gives the same 5 and the same
aggregator. -/
theorem C8_idempotent_materialization_witness :
    (((freshAggregator 10).add 3).1.read_and_materialize (fun _ => some 2)
        (.Ephemeral 0)).2 = .ok 5 ∧
    ({ value := 5, state := .Data, limit := 10, history := none } :
        Aggregator).read_and_materialize (fun _ => none) (.Ephemeral 1) =
      ({ value := 5, state := .Data, limit := 10, history := none }, .ok 5) :=
  ⟨rfl, C8_idempotent_materialization ((freshAggregator 10).add 3).1
    (fun _ => some 2) (.Ephemeral 0) _ 5 rfl (fun _ => none) (.Ephemeral 1)⟩

/-- C3: for a delta-state aggregator with history `(mp, mn)` and a resolver
giving base `v`, `read_and_materialize` first checks `v + mp ≤ limit`
(else it fails with `Overflow`, leaving the aggregator unchanged), then
`mn ≤ v` (else `Underflow`); on success it sets `value` to `v + value`
(`PositiveDelta`) or `v - value` (`NegativeDelta`), transitions the state
to `Data`, drops the history, and returns the new value. A resolver
failure yields a `ResolutionFailed` error distinct from both arithmetic
errors. -/
theorem C3_read_and_materialize (a : Aggregator)
    (resolver : AggregatorID → Option Nat) (id : AggregatorID)
    (v mp mn : Nat) (hst : a.state ≠ .Data)
    (hh : a.history = some { max_positive := mp, min_negative := mn }) :
    (resolver id = none →
      a.read_and_materialize resolver id = (a, .error .ResolutionFailed)) ∧
    (resolver id = some v → a.limit < v + mp →
      a.read_and_materialize resolver id = (a, .error .Overflow)) ∧
    (resolver id = some v → v + mp ≤ a.limit → v < mn →
      a.read_and_materialize resolver id = (a, .error .Underflow)) ∧
    (∀ a' r, resolver id = some v →
      a.read_and_materialize resolver id = (a', .ok r) →
      a'.state = .Data ∧ a'.history = none ∧ a'.value = r ∧
      (a.state = .PositiveDelta → r = v + a.value) ∧
      (a.state = .NegativeDelta → r = v - a.value)) ∧
    (AggErr.ResolutionFailed ≠ AggErr.Overflow ∧
      AggErr.ResolutionFailed ≠ AggErr.Underflow) := by
  refine ⟨?_, ?_, ?_, ?_, by simp, by simp⟩
  · intro hr
    unfold Aggregator.read_and_materialize
    simp [hst, hr]
  · intro hr hov
    unfold Aggregator.read_and_materialize
    simp only [if_neg hst, hr, hh,
      show addition v mp a.limit = .error .Overflow from
        addition_error_iff.mpr ⟨hov, rfl⟩]
  · intro hr hmp hun
    unfold Aggregator.read_and_materialize
    simp only [if_neg hst, hr, hh,
      show addition v mp a.limit = .ok (v + mp) from
        addition_ok_iff.mpr ⟨hmp, rfl⟩,
      show subtraction v mn = .error .Underflow from
        subtraction_error_iff.mpr ⟨hun, rfl⟩]
  · intro a' r hr h
    unfold Aggregator.read_and_materialize at h
    simp only [if_neg hst, hr, hh] at h
    rcases hadd : addition v mp a.limit with e | w <;> simp only [hadd] at h
    · simp at h
    rcases hsub : subtraction v mn with e | w2 <;> simp only [hsub] at h
    · simp at h
    rcases hstate : a.state with _ | _ | _ <;> simp only [hstate] at h
    · exact absurd hstate hst
    · rcases happ : addition v a.value a.limit with e | w3 <;> simp only [happ] at h
      · simp at h
      · obtain ⟨hmp3, hw3⟩ := addition_ok_iff.mp happ
        simp at h
        obtain ⟨h1, h2⟩ := h
        refine ⟨by simp [← h1], by simp [← h1], by simp [← h1, h2], ?_, ?_⟩
        · intro _
          omega
        · intro hc
          simp [hstate] at hc
    · rcases happ : subtraction v a.value with e | w3 <;> simp only [happ] at h
      · simp at h
      · obtain ⟨hmp3, hw3⟩ := subtraction_ok_iff.mp happ
        simp at h
        obtain ⟨h1, h2⟩ := h
        refine ⟨by simp [← h1], by simp [← h1], by simp [← h1, h2], ?_, ?_⟩
        · intro hc
          simp [hstate] at hc
        · intro _
          omega

/-- C3 witness: a `+400` delta with limit 600 against base 300 fails
history validation with `Overflow`, leaving the aggregator unchanged. -/
theorem C3_read_and_materialize_witness :
    (⟨400, .PositiveDelta, 600, some ⟨400, 0⟩⟩ :
      Aggregator).read_and_materialize (fun _ => some 300) (.Ephemeral 0) =
      ((⟨400, .PositiveDelta, 600, some ⟨400, 0⟩⟩ : Aggregator),
        .error .Overflow) :=
  (C3_read_and_materialize _ (fun _ => some 300) (.Ephemeral 0) 300 400 0
    (by simp) rfl).2.1 rfl (by decide)

theorem signedValue_record (a : Aggregator) :
    signedValue a.record = signedValue a := by
  unfold signedValue
  rw [record_state, record_value]

theorem applyDelta_signed {a a1 : Aggregator} {d : DeltaOp}
    (hst : a.state ≠ .Data) (h : applyDelta a d = (a1, .ok ())) :
    signedValue a1 = signedValue a + d.signed ∧ a1.state ≠ .Data ∧
      a1.limit = a.limit := by
  rcases a with ⟨v, st, l, hi⟩
  rcases d with n | n <;> cases st <;>
    simp only [applyDelta, Aggregator.add, Aggregator.sub] at h <;>
    try exact absurd rfl hst
  · rcases hadd : addition v n l with e | w <;> simp only [hadd] at h
    · simp at h
    · obtain ⟨hle, hw⟩ := addition_ok_iff.mp hadd
      simp at h
      subst h
      refine ⟨?_, by simp, by simp⟩
      rw [signedValue_record]
      simp [signedValue, DeltaOp.signed]
      omega
  · by_cases hc : v ≤ n
    · rw [if_pos hc] at h
      rcases hsub : subtraction n v with e | w <;> simp only [hsub] at h
      · simp at h
      · obtain ⟨hle, hw⟩ := subtraction_ok_iff.mp hsub
        simp at h
        subst h
        refine ⟨?_, by simp, by simp⟩
        rw [signedValue_record]
        simp [signedValue, DeltaOp.signed]
        omega
    · rw [if_neg hc] at h
      rcases hsub : subtraction v n with e | w <;> simp only [hsub] at h
      · simp at h
      · obtain ⟨hle, hw⟩ := subtraction_ok_iff.mp hsub
        simp at h
        subst h
        refine ⟨?_, by simp, by simp⟩
        rw [signedValue_record]
        simp [signedValue, DeltaOp.signed]
        omega
  · by_cases hc : v ≥ n
    · rw [if_pos hc] at h
      rcases hsub : subtraction v n with e | w <;> simp only [hsub] at h
      · simp at h
      · obtain ⟨hle, hw⟩ := subtraction_ok_iff.mp hsub
        simp at h
        subst h
        refine ⟨?_, by simp, by simp⟩
        rw [signedValue_record]
        simp [signedValue, DeltaOp.signed]
        omega
    · rw [if_neg hc] at h
      rcases hsub2 : subtraction l n with e2 | w2 <;> simp only [hsub2] at h
      · simp at h
      · rcases hsub : subtraction n v with e | w <;> simp only [hsub] at h
        · simp at h
        · obtain ⟨hle, hw⟩ := subtraction_ok_iff.mp hsub
          simp at h
          subst h
          refine ⟨?_, by simp, by simp⟩
          rw [signedValue_record]
          simp [signedValue, DeltaOp.signed]
          omega
  · rcases hadd : addition v n l with e | w <;> simp only [hadd] at h
    · simp at h
    · obtain ⟨hle, hw⟩ := addition_ok_iff.mp hadd
      simp at h
      subst h
      refine ⟨?_, by simp, by simp⟩
      rw [signedValue_record]
      simp [signedValue, DeltaOp.signed]
      omega

theorem applyDeltas_cons_ok {a a' : Aggregator} {d : DeltaOp} {ds : List DeltaOp}
    (h : applyDeltas a (d :: ds) = (a', .ok ())) :
    ∃ a1, applyDelta a d = (a1, .ok ()) ∧ applyDeltas a1 ds = (a', .ok ()) := by
  unfold applyDeltas at h
  rcases hd : applyDelta a d with ⟨a1, u | u⟩ <;> rw [hd] at h
  · simp at h
  · exact ⟨a1, rfl, h⟩

theorem applyDeltas_signed {ds : List DeltaOp} {a a' : Aggregator}
    (hst : a.state ≠ .Data) (h : applyDeltas a ds = (a', .ok ())) :
    signedValue a' = signedValue a + sumSigned ds ∧ a'.state ≠ .Data ∧
      a'.limit = a.limit := by
  induction ds generalizing a with
  | nil =>
    unfold applyDeltas at h
    simp at h
    subst h
    simp [sumSigned]
    exact hst
  | cons d ds ih =>
    obtain ⟨a1, hd, hds⟩ := applyDeltas_cons_ok h
    obtain ⟨hs1, hst1, hl1⟩ := applyDelta_signed hst hd
    obtain ⟨hs2, hst2, hl2⟩ := ih hst1 hds
    refine ⟨?_, hst2, by rw [hl2, hl1]⟩
    rw [hs2, hs1]
    simp [sumSigned]
    ring

theorem materialize_signed {a a' : Aggregator} {v r : Nat}
    {resolver : AggregatorID → Option Nat} {id : AggregatorID}
    (hst : a.state ≠ .Data) (hr : resolver id = some v)
    (h : a.read_and_materialize resolver id = (a', .ok r)) :
    (r : Int) = (v : Int) + signedValue a := by
  unfold Aggregator.read_and_materialize at h
  rw [if_neg hst, hr] at h
  rcases hh : a.history with _ | hist <;> simp only [hh] at h
  · simp at h
  rcases hadd : addition v hist.max_positive a.limit with e | w <;>
    simp only [hadd] at h
  · simp at h
  rcases hsub : subtraction v hist.min_negative with e | w2 <;>
    simp only [hsub] at h
  · simp at h
  rcases hstate : a.state with _ | _ | _ <;> simp only [hstate] at h
  · exact absurd hstate hst
  · rcases happ : addition v a.value a.limit with e | w3 <;>
      simp only [happ] at h
    · simp at h
    · obtain ⟨hle, hw⟩ := addition_ok_iff.mp happ
      simp at h
      obtain ⟨-, h2⟩ := h
      simp [signedValue, hstate]
      omega
  · rcases happ : subtraction v a.value with e | w3 <;> simp only [happ] at h
    · simp at h
    · obtain ⟨hle, hw⟩ := subtraction_ok_iff.mp happ
      simp at h
      obtain ⟨-, h2⟩ := h
      simp [signedValue, hstate]
      omega

/-- C1: for any two permutations of a delta sequence applied from a fresh
`PositiveDelta(0)` aggregator, if both runs succeed and materialization
against the same base `v` succeeds for both, then `read_and_materialize`
returns the same value for both orderings. -/
theorem C1_commutative_materialization (limit v : Nat)
    (ds ds' : List DeltaOp) (hperm : ds.Perm ds')
    (resolver : AggregatorID → Option Nat) (id : AggregatorID)
    (hr : resolver id = some v) (a1 a2 b1 b2 : Aggregator) (r1 r2 : Nat)
    (h1 : applyDeltas (freshAggregator limit) ds = (a1, .ok ()))
    (h2 : applyDeltas (freshAggregator limit) ds' = (a2, .ok ()))
    (hm1 : a1.read_and_materialize resolver id = (b1, .ok r1))
    (hm2 : a2.read_and_materialize resolver id = (b2, .ok r2)) :
    r1 = r2 := by
  have hfresh : (freshAggregator limit).state ≠ .Data := by
    simp [freshAggregator]
  obtain ⟨hs1, hst1, -⟩ := applyDeltas_signed hfresh h1
  obtain ⟨hs2, hst2, -⟩ := applyDeltas_signed hfresh h2
  have hsum : sumSigned ds = sumSigned ds' := by
    unfold sumSigned
    exact (hperm.map DeltaOp.signed).sum_eq
  have e1 := materialize_signed hst1 hr hm1
  have e2 := materialize_signed hst2 hr hm2
  have : (r1 : Int) = (r2 : Int) := by
    rw [e1, e2, hs1, hs2, hsum]
  exact_mod_cast this

/-- C1 witness: the sequences `[+1, -1]` and `[-1, +1]` both succeed with
limit 10 and materialize against base 5 to the same value. -/
theorem C1_commutative_materialization_witness :
    (applyDeltas (freshAggregator 10) [.addOp 1, .subOp 1]).2 = .ok () ∧
    (applyDeltas (freshAggregator 10) [.subOp 1, .addOp 1]).2 = .ok () ∧
    ((applyDeltas (freshAggregator 10) [.addOp 1, .subOp 1]).1.read_and_materialize
      (fun _ => some 5) (.Ephemeral 0)).2 = .ok 5 ∧
    ((applyDeltas (freshAggregator 10) [.subOp 1, .addOp 1]).1.read_and_materialize
      (fun _ => some 5) (.Ephemeral 0)).2 = .ok 5 ∧
    (5 : Nat) = 5 := by
  refine ⟨rfl, rfl, rfl, rfl, ?_⟩
  exact C1_commutative_materialization 10 5 [.addOp 1, .subOp 1]
    [.subOp 1, .addOp 1] (by decide) (fun _ => some 5) (.Ephemeral 0) rfl
    _ _ _ _ 5 5 rfl rfl rfl rfl

theorem applyDelta_env {a a1 : Aggregator} {d : DeltaOp} {mp mn : Nat}
    (hst : a.state ≠ .Data)
    (hh : a.history = some { max_positive := mp, min_negative := mn })
    (h : applyDelta a d = (a1, .ok ())) :
    a1.history = some {
        max_positive := max mp (signedValue a + d.signed).toNat,
        min_negative := max mn (-(signedValue a + d.signed)).toNat } ∧
      a1.state ≠ .Data ∧ signedValue a1 = signedValue a + d.signed := by
  rcases a with ⟨v, st, l, hi⟩
  simp only at hh
  subst hh
  rcases d with n | n <;> cases st <;>
    simp only [applyDelta, Aggregator.add, Aggregator.sub] at h <;>
    try exact absurd rfl hst
  · rcases hadd : addition v n l with e | w <;> simp only [hadd] at h
    · simp at h
    · obtain ⟨hle, hw⟩ := addition_ok_iff.mp hadd
      simp at h
      subst h
      simp [Aggregator.record, History.record_positive, History.record_negative,
        signedValue, DeltaOp.signed]
      refine ⟨⟨?_, ?_⟩, ?_⟩ <;> omega
  · by_cases hc : v ≤ n
    · rw [if_pos hc] at h
      rcases hsub : subtraction n v with e | w <;> simp only [hsub] at h
      · simp at h
      · obtain ⟨hle, hw⟩ := subtraction_ok_iff.mp hsub
        simp at h
        subst h
        simp [Aggregator.record, History.record_positive, History.record_negative,
          signedValue, DeltaOp.signed]
        refine ⟨⟨?_, ?_⟩, ?_⟩ <;> omega
    · rw [if_neg hc] at h
      rcases hsub : subtraction v n with e | w <;> simp only [hsub] at h
      · simp at h
      · obtain ⟨hle, hw⟩ := subtraction_ok_iff.mp hsub
        simp at h
        subst h
        simp [Aggregator.record, History.record_positive, History.record_negative,
          signedValue, DeltaOp.signed]
        refine ⟨⟨?_, ?_⟩, ?_⟩ <;> omega
  · by_cases hc : v ≥ n
    · rw [if_pos hc] at h
      rcases hsub : subtraction v n with e | w <;> simp only [hsub] at h
      · simp at h
      · obtain ⟨hle, hw⟩ := subtraction_ok_iff.mp hsub
        simp at h
        subst h
        simp [Aggregator.record, History.record_positive, History.record_negative,
          signedValue, DeltaOp.signed]
        refine ⟨⟨?_, ?_⟩, ?_⟩ <;> omega
    · rw [if_neg hc] at h
      rcases hsub2 : subtraction l n with e2 | w2 <;> simp only [hsub2] at h
      · simp at h
      · rcases hsub : subtraction n v with e | w <;> simp only [hsub] at h
        · simp at h
        · obtain ⟨hle, hw⟩ := subtraction_ok_iff.mp hsub
          simp at h
          subst h
          simp [Aggregator.record, History.record_positive, History.record_negative,
            signedValue, DeltaOp.signed]
          refine ⟨⟨?_, ?_⟩, ?_⟩ <;> omega
  · rcases hadd : addition v n l with e | w <;> simp only [hadd] at h
    · simp at h
    · obtain ⟨hle, hw⟩ := addition_ok_iff.mp hadd
      simp at h
      subst h
      simp [Aggregator.record, History.record_positive, History.record_negative,
        signedValue, DeltaOp.signed]
      refine ⟨⟨?_, ?_⟩, ?_⟩ <;> omega

theorem applyDeltas_env {ds : List DeltaOp} {a a' : Aggregator} {mp mn : Nat}
    (hst : a.state ≠ .Data)
    (hh : a.history = some { max_positive := mp, min_negative := mn })
    (h : applyDeltas a ds = (a', .ok ())) :
    a'.history = some {
        max_positive :=
          (runningSums (signedValue a) ds).foldl (fun m x => max m x.toNat) mp,
        min_negative :=
          (runningSums (signedValue a) ds).foldl (fun m x => max m (-x).toNat) mn } := by
  induction ds generalizing a mp mn with
  | nil =>
    unfold applyDeltas at h
    simp at h
    subst h
    simpa [runningSums] using hh
  | cons d ds ih =>
    obtain ⟨a1, hd, hds⟩ := applyDeltas_cons_ok h
    obtain ⟨hh1, hst1, hs1⟩ := applyDelta_env hst hh hd
    have := ih hst1 hh1 hds
    simpa [runningSums, hs1] using this

/-- C6: for any delta sequence applied to a fresh `PositiveDelta(0)`
aggregator without error, the final history pair equals the largest
positive excursion and the largest magnitude of negative excursion of the
running signed sum of the deltas, each floored at 0. -/
theorem C6_history_tight_envelope (limit : Nat) (ds : List DeltaOp)
    (a : Aggregator)
    (h : applyDeltas (freshAggregator limit) ds = (a, .ok ())) :
    a.history = some {
        max_positive := supPos (runningSums 0 ds),
        min_negative := supNeg (runningSums 0 ds) } := by
  have henv := applyDeltas_env (a := freshAggregator limit)
    (by simp [freshAggregator]) rfl h
  simpa [supPos, supNeg, freshAggregator, signedValue] using henv

/-- C6 witness: `[+2, -3]` with limit 10 ends with history `(2, 1)`,
matching the running sums `[2, -1]`. -/
theorem C6_history_tight_envelope_witness :
    (applyDeltas (freshAggregator 10) [.addOp 2, .subOp 3]).2 = .ok () ∧
    (applyDeltas (freshAggregator 10) [.addOp 2, .subOp 3]).1.history =
      some { max_positive := 2, min_negative := 1 } := by
  refine ⟨rfl, ?_⟩
  have := C6_history_tight_envelope 10 [.addOp 2, .subOp 3]
    (applyDeltas (freshAggregator 10) [.addOp 2, .subOp 3]).1 rfl
  simpa [runningSums, supPos, supNeg, DeltaOp.signed] using this

/-- C10: after every successful `add` or `sub` on a delta-state aggregator
with a history, the history bounds the current value (`max_positive ≥
value` in `PositiveDelta`, `min_negative ≥ value` in `NegativeDelta`);
consequently, once the two history-validation checks of
`read_and_materialize` pass, applying the current delta to the resolved
base cannot fail. -/
theorem C10_history_bounds_value :
    (∀ (a a1 : Aggregator) (n : Nat) (hp : History),
      a.state ≠ .Data → a.history = some hp →
      (applyDelta a (.addOp n) = (a1, .ok ()) ∨
        applyDelta a (.subOp n) = (a1, .ok ())) →
      ∃ h1, a1.history = some h1 ∧
        (a1.state = .PositiveDelta → a1.value ≤ h1.max_positive) ∧
        (a1.state = .NegativeDelta → a1.value ≤ h1.min_negative)) ∧
    (∀ (a : Aggregator) (v mp mn : Nat) (resolver : AggregatorID → Option Nat)
      (id : AggregatorID),
      a.state ≠ .Data →
      a.history = some { max_positive := mp, min_negative := mn } →
      (a.state = .PositiveDelta → a.value ≤ mp) →
      (a.state = .NegativeDelta → a.value ≤ mn) →
      resolver id = some v → v + mp ≤ a.limit → mn ≤ v →
      ∃ a' r, a.read_and_materialize resolver id = (a', .ok r)) := by
  constructor
  · intro a a1 n hp hst hh hop
    obtain ⟨d, hd⟩ : ∃ d, applyDelta a d = (a1, .ok ()) := by
      rcases hop with hd | hd
      exacts [⟨_, hd⟩, ⟨_, hd⟩]
    obtain ⟨hh1, hst1, hs1⟩ := applyDelta_env hst hh hd
    refine ⟨_, hh1, ?_, ?_⟩
    · intro hpos
      have hv : (a1.value : Int) = signedValue a + d.signed := by
        rw [← hs1]
        simp [signedValue, hpos]
      have hvn : a1.value = (signedValue a + d.signed).toNat := by omega
      rw [hvn]
      exact le_max_right _ _
    · intro hneg
      have hv : -(a1.value : Int) = signedValue a + d.signed := by
        rw [← hs1]
        simp [signedValue, hneg]
      have hvn : a1.value = (-(signedValue a + d.signed)).toNat := by omega
      rw [hvn]
      exact le_max_right _ _
  · intro a v mp mn resolver id hst hh hmp hmn hr hc1 hc2
    unfold Aggregator.read_and_materialize
    simp only [if_neg hst, hr, hh,
      show addition v mp a.limit = .ok (v + mp) from addition_ok_iff.mpr ⟨hc1, rfl⟩,
      show subtraction v mn = .ok (v - mn) from subtraction_ok_iff.mpr ⟨hc2, rfl⟩]
    rcases hstate : a.state with _ | _ | _ <;> simp only [hstate]
    · exact absurd hstate hst
    · rw [show addition v a.value a.limit = .ok (v + a.value) from
        addition_ok_iff.mpr ⟨by have := hmp hstate; omega, rfl⟩]
      exact ⟨_, _, rfl⟩
    · rw [show subtraction v a.value = .ok (v - a.value) from
        subtraction_ok_iff.mpr ⟨by have := hmn hstate; omega, rfl⟩]
      exact ⟨_, _, rfl⟩

/-- C10 witness: after `add 3` on a fresh aggregator the history bounds
the value, and with history `(3, 0)` and base 4 within limit 10 the
materialization succeeds. -/
theorem C10_history_bounds_value_witness :
    (∃ h1, ((freshAggregator 10).add 3).1.history = some h1 ∧
      (((freshAggregator 10).add 3).1.state = .PositiveDelta →
        ((freshAggregator 10).add 3).1.value ≤ h1.max_positive) ∧
      (((freshAggregator 10).add 3).1.state = .NegativeDelta →
        ((freshAggregator 10).add 3).1.value ≤ h1.min_negative)) ∧
    (∃ a' r, (⟨3, .PositiveDelta, 10, some ⟨3, 0⟩⟩ :
      Aggregator).read_and_materialize (fun _ => some 4) (.Ephemeral 0) =
        (a', .ok r)) := by
  constructor
  · exact C10_history_bounds_value.1 (freshAggregator 10) _ 3 History.new
      (by simp [freshAggregator]) rfl (Or.inl rfl)
  · exact C10_history_bounds_value.2 _ 4 3 0 (fun _ => some 4) (.Ephemeral 0)
      (by simp) rfl (fun _ => by decide) (by simp) rfl (by decide) (by decide)

theorem record_inv {b : Aggregator} (hb : b.value ≤ b.limit)
    (hhist : ∀ h, b.history = some h →
      h.max_positive ≤ b.limit ∧ h.min_negative ≤ b.limit) :
    b.record.inv := by
  rcases b with ⟨v, st, l, hi⟩
  rcases hi with _ | h
  · exact ⟨hb, by simp [Aggregator.record]⟩
  · obtain ⟨h1, h2⟩ := hhist h rfl
    rcases h with ⟨mp, mn⟩
    simp only at hb h1 h2
    cases st <;>
      simp [Aggregator.record, Aggregator.inv, History.record_positive,
        History.record_negative] <;> omega

theorem sub_inv {a a' : Aggregator} {n : Nat} (hinv : a.inv)
    (h : a.sub n = (a', .ok ())) : a'.inv := by
  obtain ⟨hv, hh⟩ := hinv
  rcases a with ⟨v, st, l, hi⟩
  simp only at hv hh
  cases st <;> simp only [Aggregator.sub] at h
  · rcases hsub : subtraction v n with e | w <;> simp only [hsub] at h
    · simp at h
    · obtain ⟨hle, hw⟩ := subtraction_ok_iff.mp hsub
      simp at h
      subst h
      exact ⟨by simp; omega, by simpa using hh⟩
  · by_cases hc : v ≥ n
    · rw [if_pos hc] at h
      rcases hsub : subtraction v n with e | w <;> simp only [hsub] at h
      · simp at h
      · obtain ⟨hle, hw⟩ := subtraction_ok_iff.mp hsub
        simp at h
        subst h
        exact record_inv (by simp; omega) (by simpa using hh)
    · rw [if_neg hc] at h
      rcases hsub2 : subtraction l n with e2 | w2 <;> simp only [hsub2] at h
      · simp at h
      · obtain ⟨hle2, -⟩ := subtraction_ok_iff.mp hsub2
        rcases hsub : subtraction n v with e | w <;> simp only [hsub] at h
        · simp at h
        · obtain ⟨hle, hw⟩ := subtraction_ok_iff.mp hsub
          simp at h
          subst h
          exact record_inv (by simp; omega) (by simpa using hh)
  · rcases hadd : addition v n l with e | w <;> simp only [hadd] at h
    · simp at h
    · obtain ⟨hle, hw⟩ := addition_ok_iff.mp hadd
      simp at h
      subst h
      exact record_inv (by simp; omega) (by simpa using hh)

theorem add_inv {a a' : Aggregator} {n : Nat} (hinv : a.inv)
    (h : a.add n = (a', .ok ()))
    (hexc : ¬(a.state = .NegativeDelta ∧ a.value ≤ n)) : a'.inv := by
  obtain ⟨hv, hh⟩ := hinv
  rcases a with ⟨v, st, l, hi⟩
  simp only at hv hh hexc
  cases st <;> simp only [Aggregator.add] at h
  · rcases hadd : addition v n l with e | w <;> simp only [hadd] at h
    · simp at h
    · obtain ⟨hle, hw⟩ := addition_ok_iff.mp hadd
      simp at h
      subst h
      exact ⟨by simp; omega, by simpa using hh⟩
  · rcases hadd : addition v n l with e | w <;> simp only [hadd] at h
    · simp at h
    · obtain ⟨hle, hw⟩ := addition_ok_iff.mp hadd
      simp at h
      subst h
      exact record_inv (by simp; omega) (by simpa using hh)
  · have hc : ¬(v ≤ n) := fun hc => hexc ⟨rfl, hc⟩
    rw [if_neg hc] at h
    rcases hsub : subtraction v n with e | w <;> simp only [hsub] at h
    · simp at h
    · obtain ⟨hle, hw⟩ := subtraction_ok_iff.mp hsub
      simp at h
      subst h
      exact record_inv (by simp; omega) (by simpa using hh)

theorem add_flip {a a' : Aggregator} {n : Nat} (h : a.add n = (a', .ok ()))
    (hst : a.state = .NegativeDelta) (hle : a.value ≤ n) :
    a'.value = n - a.value ∧ a'.state = .PositiveDelta := by
  rcases a with ⟨v, st, l, hi⟩
  simp only at hst hle
  subst hst
  simp only [Aggregator.add, if_pos hle] at h
  rcases hsub : subtraction n v with e | w <;> simp only [hsub] at h
  · simp at h
  · obtain ⟨h1, hw⟩ := subtraction_ok_iff.mp hsub
    simp at h
    subst h
    exact ⟨by simp [hw], by simp⟩

theorem rm_inv {a a' : Aggregator} {resolver : AggregatorID → Option Nat}
    {id : AggregatorID} {v : Nat} (hinv : a.inv)
    (h : a.read_and_materialize resolver id = (a', .ok v)) : a'.inv := by
  obtain ⟨hv, hh⟩ := hinv
  unfold Aggregator.read_and_materialize at h
  by_cases hst : a.state = .Data
  · rw [if_pos hst] at h
    simp at h
    obtain ⟨h1, -⟩ := h
    subst h1
    exact ⟨hv, hh⟩
  rw [if_neg hst] at h
  rcases hr : resolver id with _ | w0 <;> simp only [hr] at h
  · simp at h
  rcases hhi : a.history with _ | hist <;> simp only [hhi] at h
  · simp at h
  rcases hadd : addition w0 hist.max_positive a.limit with e | w <;>
    simp only [hadd] at h
  · simp at h
  obtain ⟨hwle, -⟩ := addition_ok_iff.mp hadd
  rcases hsub : subtraction w0 hist.min_negative with e | w2 <;>
    simp only [hsub] at h
  · simp at h
  rcases hstate : a.state with _ | _ | _ <;> simp only [hstate] at h
  · exact absurd hstate hst
  · rcases happ : addition w0 a.value a.limit with e | w3 <;>
      simp only [happ] at h
    · simp at h
    · obtain ⟨hle3, hw3⟩ := addition_ok_iff.mp happ
      simp at h
      obtain ⟨h1, -⟩ := h
      subst h1
      exact ⟨by simp; omega, by simp⟩
  · rcases happ : subtraction w0 a.value with e | w3 <;> simp only [happ] at h
    · simp at h
    · obtain ⟨hle3, hw3⟩ := subtraction_ok_iff.mp happ
      simp at h
      obtain ⟨h1, -⟩ := h
      subst h1
      exact ⟨by simp; omega, by simp⟩

theorem mapLookup_mapInsert_self (m : List (AggregatorID × Aggregator))
    (id : AggregatorID) (a : Aggregator) :
    mapLookup (mapInsert m id a) id = some a := by
  induction m with
  | nil => simp [mapInsert, mapLookup]
  | cons p rest ih =>
    obtain ⟨k, b⟩ := p
    by_cases hk : k = id <;> simp [mapInsert, mapLookup, hk, ih]

theorem freshAggregator_inv (limit : Nat) : (freshAggregator limit).inv := by
  refine ⟨Nat.zero_le _, ?_⟩
  intro h hh
  simp [freshAggregator, History.new] at hh
  simp [← hh, freshAggregator]

theorem get_aggregator_inv {d : AggregatorData} {id : AggregatorID}
    {limit : Nat} {resolver : AggregatorID → Option Nat} {en : Bool}
    {d' : AggregatorData} {b : Aggregator}
    (hmap : ∀ k c, mapLookup d.aggregators k = some c → c.inv)
    (h : d.get_aggregator id limit resolver en = (d', .ok b)) : b.inv := by
  rcases hl : mapLookup d.aggregators id with _ | c <;> cases en
  · simp [AggregatorData.get_aggregator, hl] at h
    rcases hrm : Aggregator.read_and_materialize
        ⟨0, .PositiveDelta, limit, some History.new⟩ resolver id with ⟨a2, w | e⟩
    · rw [hrm] at h
      simp at h
    · rw [hrm] at h
      simp at h
      obtain ⟨-, h2⟩ := h
      subst h2
      exact rm_inv (freshAggregator_inv limit) hrm
  · simp [AggregatorData.get_aggregator, hl] at h
    obtain ⟨-, h2⟩ := h
    subst h2
    exact freshAggregator_inv limit
  · simp [AggregatorData.get_aggregator, hl] at h
    rcases hrm : c.read_and_materialize resolver id with ⟨a2, w | e⟩
    · rw [hrm] at h
      simp at h
    · rw [hrm] at h
      simp at h
      obtain ⟨-, h2⟩ := h
      subst h2
      exact rm_inv (hmap id c hl) hrm
  · simp [AggregatorData.get_aggregator, hl] at h
    obtain ⟨-, h2⟩ := h
    subst h2
    exact hmap id c hl

/-- C4 counterexample: from a fresh aggregator with limit 10, `sub 5` then
`add 100` both succeed (the pre-state of the `add` is `NegativeDelta(5)`,
which satisfies all the invariants), yet the resulting value is 95 > 10 and
the recorded `max_positive` is 95 > 10 as well: the sign-flip branch of
`add` from `NegativeDelta` performs no limit check. -/
theorem C4_value_le_limit_counterexample :
    (freshAggregator 10).restInv ∧
    (applyDeltas (freshAggregator 10) [.subOp 5, .addOp 100]).2 = .ok () ∧
    (applyDeltas (freshAggregator 10) [.subOp 5, .addOp 100]).1.state =
      .PositiveDelta ∧
    (applyDeltas (freshAggregator 10) [.subOp 5, .addOp 100]).1.value = 95 ∧
    (applyDeltas (freshAggregator 10) [.subOp 5, .addOp 100]).1.limit = 10 ∧
    (applyDeltas (freshAggregator 10) [.subOp 5, .addOp 100]).1.history =
      some { max_positive := 95, min_negative := 5 } ∧
    ¬((applyDeltas (freshAggregator 10) [.subOp 5, .addOp 100]).1.value ≤
      (applyDeltas (freshAggregator 10) [.subOp 5, .addOp 100]).1.limit) := by
  refine ⟨?_, rfl, rfl, rfl, rfl, rfl, by decide⟩
  refine ⟨freshAggregator_inv 10, ?_⟩
  simp [freshAggregator]

/-- C4 (amended): assuming the bound invariants before the call, every
successful `sub`, `read_and_materialize`, `create_new_aggregator`, and
`get_aggregator` preserves `value ≤ limit` and the history bounds, and so
does every successful `add` except in the sign-flip branch from
`NegativeDelta` (current value ≤ delta): that branch sets `value` to
`delta - value` with no limit check, and the result can exceed `limit`. -/
theorem C4_value_le_limit_amended :
    (∀ (a a' : Aggregator) (n : Nat), a.inv → a.sub n = (a', .ok ()) →
      a'.inv) ∧
    (∀ (a a' : Aggregator) (n : Nat), a.inv → a.add n = (a', .ok ()) →
      ¬(a.state = .NegativeDelta ∧ a.value ≤ n) → a'.inv) ∧
    (∀ (a a' : Aggregator) (n : Nat), a.add n = (a', .ok ()) →
      a.state = .NegativeDelta → a.value ≤ n →
      a'.value = n - a.value ∧ a'.state = .PositiveDelta) ∧
    (∀ (a a' : Aggregator) (resolver : AggregatorID → Option Nat)
      (id : AggregatorID) (v : Nat), a.inv →
      a.read_and_materialize resolver id = (a', .ok v) → a'.inv) ∧
    (∀ (d : AggregatorData) (id : AggregatorID) (limit : Nat) (b : Aggregator),
      mapLookup (d.create_new_aggregator id limit).aggregators id = some b →
      b.inv) ∧
    (∀ (d : AggregatorData) (id : AggregatorID) (limit : Nat)
      (resolver : AggregatorID → Option Nat) (en : Bool)
      (d' : AggregatorData) (b : Aggregator),
      (∀ k c, mapLookup d.aggregators k = some c → c.inv) →
      d.get_aggregator id limit resolver en = (d', .ok b) → b.inv) := by
  refine ⟨fun a a' n hi h => sub_inv hi h,
    fun a a' n hi h hexc => add_inv hi h hexc,
    fun a a' n h h1 h2 => add_flip h h1 h2,
    fun a a' r id v hi h => rm_inv hi h, ?_,
    fun d id limit r en d' b hmap h => get_aggregator_inv hmap h⟩
  intro d id limit b hb
  unfold AggregatorData.create_new_aggregator at hb
  simp only at hb
  rw [mapLookup_mapInsert_self] at hb
  cases hb
  exact ⟨Nat.zero_le _, by simp⟩

/-- C4 amended witness: a fresh aggregator with limit 10 satisfies the
bound invariants, and so does the result of a successful `sub 5`. -/
theorem C4_value_le_limit_amended_witness :
    (freshAggregator 10).inv ∧
    ((freshAggregator 10).sub 5).2 = .ok () ∧
    ((freshAggregator 10).sub 5).1.inv := by
  refine ⟨freshAggregator_inv 10, rfl, ?_⟩
  exact C4_value_le_limit_amended.1 (freshAggregator 10) _ 5
    (freshAggregator_inv 10) rfl

theorem mem_setInsert {s : List AggregatorID} {x y : AggregatorID} :
    y ∈ setInsert s x ↔ y = x ∨ y ∈ s := by
  unfold setInsert
  split
  · constructor
    · exact fun h => Or.inr h
    · rintro (rfl | h)
      · assumption
      · exact h
  · simp [List.mem_cons]

theorem mem_setRemove {s : List AggregatorID} {x y : AggregatorID} :
    y ∈ setRemove s x ↔ y ∈ s ∧ y ≠ x := by
  simp [setRemove, List.mem_filter]

theorem get_aggregator_sets (d : AggregatorData) (id : AggregatorID)
    (limit : Nat) (r : AggregatorID → Option Nat) (en : Bool) :
    (d.get_aggregator id limit r en).1.new_aggregators = d.new_aggregators ∧
    (d.get_aggregator id limit r en).1.destroyed_aggregators =
      d.destroyed_aggregators := by
  unfold AggregatorData.get_aggregator
  simp only
  repeat' split
  all_goals simp

theorem remove_aggregator_sets (d : AggregatorData) (rid : AggregatorID) :
    (rid ∈ d.new_aggregators →
      (d.remove_aggregator rid).new_aggregators =
        setRemove d.new_aggregators rid ∧
      (d.remove_aggregator rid).destroyed_aggregators =
        d.destroyed_aggregators) ∧
    (rid ∉ d.new_aggregators →
      (d.remove_aggregator rid).new_aggregators = d.new_aggregators ∧
      (d.remove_aggregator rid).destroyed_aggregators =
        setInsert d.destroyed_aggregators rid) := by
  unfold AggregatorData.remove_aggregator
  simp only
  constructor
  · intro hmem
    rw [if_pos hmem]
    exact ⟨rfl, rfl⟩
  · intro hmem
    rw [if_neg hmem]
    exact ⟨rfl, rfl⟩

theorem registry_disjoint_aux (r : AggregatorID → Option Nat)
    (ops : List RegistryOp) :
    ∀ (d : AggregatorData), noCreateAfterRemove ops = true →
    (∀ id, id ∈ d.destroyed_aggregators →
      ∀ op ∈ ops, createsId op id = false) →
    (∀ id, id ∈ d.new_aggregators → id ∉ d.destroyed_aggregators) →
    ∀ id, id ∈ (applyRegistryOps r d ops).new_aggregators →
      id ∉ (applyRegistryOps r d ops).destroyed_aggregators := by
  induction ops with
  | nil =>
    intro d _ _ hdisj id
    exact hdisj id
  | cons op ops ih =>
    intro d hnc hdest hdisj
    have hnc2 : noCreateAfterRemove ops = true := by
      unfold noCreateAfterRemove at hnc
      simp only [Bool.and_eq_true] at hnc
      exact hnc.2
    simp only [applyRegistryOps]
    rcases op with ⟨gid, glimit, gen⟩ | ⟨cid, clim⟩ | rid
    · apply ih _ hnc2
      · intro id hid op2 hop2
        obtain ⟨-, h2⟩ := get_aggregator_sets d gid glimit r gen
        rw [applyRegistryOp, h2] at hid
        exact hdest id hid op2 (List.mem_cons_of_mem _ hop2)
      · intro id hid
        obtain ⟨h1, h2⟩ := get_aggregator_sets d gid glimit r gen
        rw [applyRegistryOp, h1] at hid
        rw [applyRegistryOp, h2]
        exact hdisj id hid
    · apply ih _ hnc2
      · intro id hid op2 hop2
        exact hdest id hid op2 (List.mem_cons_of_mem _ hop2)
      · intro id hid
        simp only [applyRegistryOp, AggregatorData.create_new_aggregator] at hid ⊢
        rcases mem_setInsert.mp hid with rfl | hid2
        · intro hcon
          have := hdest id hcon (.createOp id clim) (List.mem_cons_self _ _)
          simp [createsId] at this
        · exact hdisj id hid2
    · have hall : ∀ op2 ∈ ops, createsId op2 rid = false := by
        unfold noCreateAfterRemove at hnc
        simp only [Bool.and_eq_true] at hnc
        have h1 := hnc.1
        simp only [List.all_eq_true, Bool.not_eq_true'] at h1
        exact h1
      by_cases hmem : rid ∈ d.new_aggregators
      · obtain ⟨h1, h2⟩ := (remove_aggregator_sets d rid).1 hmem
        apply ih _ hnc2
        · intro id hid op2 hop2
          rw [applyRegistryOp, h2] at hid
          exact hdest id hid op2 (List.mem_cons_of_mem _ hop2)
        · intro id hid
          rw [applyRegistryOp, h1] at hid
          rw [applyRegistryOp, h2]
          obtain ⟨hid2, -⟩ := mem_setRemove.mp hid
          exact hdisj id hid2
      · obtain ⟨h1, h2⟩ := (remove_aggregator_sets d rid).2 hmem
        apply ih _ hnc2
        · intro id hid op2 hop2
          rw [applyRegistryOp, h2] at hid
          rcases mem_setInsert.mp hid with rfl | hid2
          · exact hall op2 hop2
          · exact hdest id hid2 op2 (List.mem_cons_of_mem _ hop2)
        · intro id hid
          rw [applyRegistryOp, h1] at hid
          rw [applyRegistryOp, h2]
          intro hcon
          rcases mem_setInsert.mp hcon with rfl | hcon2
          · exact hmem hid
          · exact hdisj id hid hcon2

/-- C5 counterexample: a single `create_new_aggregator` puts the id in both
`new_aggregators` and the `aggregators` map, so the three collections
surfaced by the consuming projection are not pairwise disjoint; moreover,
after `remove_aggregator` followed by `create_new_aggregator` of the same
id, even `new_aggregators` and `destroyed_aggregators` intersect. -/
theorem C5_pairwise_disjoint_counterexample :
    ¬ unpackPairwiseDisjoint
        (applyRegistryOps (fun _ => none) (AggregatorData.new 0)
          [.createOp (.Ephemeral 0) 5]) ∧
    ¬ idsDisjoint
        (applyRegistryOps (fun _ => none) (AggregatorData.new 0)
          [.removeOp (.Ephemeral 0),
            .createOp (.Ephemeral 0) 5]).new_aggregators
        (applyRegistryOps (fun _ => none) (AggregatorData.new 0)
          [.removeOp (.Ephemeral 0),
            .createOp (.Ephemeral 0) 5]).destroyed_aggregators := by
  constructor
  · intro h
    exact absurd h (by decide)
  · intro h
    exact absurd h (by decide)

/-- C5 (amended): the three collections are not pairwise disjoint in
general; what holds is that for every sequence of registry operations from
a fresh registry in which no `create_new_aggregator` reuses an id
previously passed to `remove_aggregator`, the id sets of `new_aggregators`
and `destroyed_aggregators` returned by the consuming projection are
disjoint. -/
theorem C5_new_destroyed_disjoint_amended (r : AggregatorID → Option Nat)
    (ops : List RegistryOp) (hnc : noCreateAfterRemove ops = true) :
    idsDisjoint
      ((applyRegistryOps r (AggregatorData.new 0) ops).unpack).1
      ((applyRegistryOps r (AggregatorData.new 0) ops).unpack).2.1 := by
  intro id hid
  exact registry_disjoint_aux r ops (AggregatorData.new 0) hnc
    (by intro id2 h2; simp [AggregatorData.new] at h2)
    (by intro id2 h2; simp [AggregatorData.new] at h2) id hid

/-- C5 amended witness: a create/get/remove sequence with no re-creation
after removal satisfies the side condition, and the resulting
`new_aggregators` and `destroyed_aggregators` are disjoint. -/
theorem C5_new_destroyed_disjoint_amended_witness :
    noCreateAfterRemove
      [.createOp (.Ephemeral 0) 5, .getOp (.Ephemeral 1) 7 true,
        .removeOp (.Ephemeral 0), .removeOp (.Ephemeral 2)] = true ∧
    idsDisjoint
      ((applyRegistryOps (fun _ => none) (AggregatorData.new 0)
        [.createOp (.Ephemeral 0) 5, .getOp (.Ephemeral 1) 7 true,
          .removeOp (.Ephemeral 0), .removeOp (.Ephemeral 2)]).unpack).1
      ((applyRegistryOps (fun _ => none) (AggregatorData.new 0)
        [.createOp (.Ephemeral 0) 5, .getOp (.Ephemeral 1) 7 true,
          .removeOp (.Ephemeral 0), .removeOp (.Ephemeral 2)]).unpack).2.1 :=
  ⟨by decide, C5_new_destroyed_disjoint_amended (fun _ => none) _ (by decide)⟩
